import Mathlib

/-!
Verification development for the longform recognition engine of the
`deft`/`adeft` repository (`src/adeft/recognize.py`, `src/deft/recognize.py`).

The data model is a search trie keyed on reversed, stemmed longform tokens.
Python dicts are modelled as insertion-ordered association lists with unique
keys (lookup returns the first binding), mirroring `dict` iteration order.
The external collaborators (the NLTK stemmer, and the tokenizer and
fragment/candidate extractors from `adeft.nlp` / `adeft.util` /
`deft.extraction`, which are not part of the sources) are abstracted as
function parameters, or, where a concrete model is required, defined below
with a doc comment starting `Modelled from the spec:`.
-/

set_option maxHeartbeats 1000000

/-- Embeds `_TrieNode` (`src/adeft/recognize.py` lines 105-121, and
`src/deft/recognize.py` lines 11-26): an optional terminal value (the
`longform` attribute in the adeft revision, `grounding` in the deft revision)
together with a `dict` mapping tokens to child nodes, modelled as an
insertion-ordered association list. -/
inductive TrieNode where
  | mk (longform : Option String) (children : List (String × TrieNode))

/-- Terminal value stored at a node (`self.longform` / `self.grounding`). -/
def TrieNode.longform : TrieNode → Option String
  | .mk v _ => v

/-- Children mapping of a node (`self.children`). -/
def TrieNode.children : TrieNode → List (String × TrieNode)
  | .mk _ c => c

theorem longform_mk (v : Option String) (c : List (String × TrieNode)) :
    (TrieNode.mk v c).longform = v := rfl

theorem children_mk (v : Option String) (c : List (String × TrieNode)) :
    (TrieNode.mk v c).children = c := rfl

/-- Python `token in current.children` / `current.children[token]` on the
association-list model of a dict: first binding wins. -/
def assocFind (l : List (String × TrieNode)) (t : String) : Option TrieNode :=
  match l with
  | [] => none
  | (a, c) :: rest => if a = t then some c else assocFind rest t

/-- Python `current.children[token] = new` when `token` is already bound:
replace the first binding, keeping insertion order. -/
def assocReplace (l : List (String × TrieNode)) (t : String) (x : TrieNode) :
    List (String × TrieNode) :=
  match l with
  | [] => []
  | (a, c) :: rest =>
    if a = t then (a, x) :: rest else (a, c) :: assocReplace rest t x

/-- Chain of fresh nodes built by `_init_trie` once it has left the existing
part of the trie: every inner node is non-terminal and the final node carries
the value (`new = _TrieNode(longform)` exactly when `index == len(edges) - 1`,
`src/adeft/recognize.py` lines 170-177). -/
def newNode (key : List String) (v : String) : TrieNode :=
  match key with
  | [] => .mk (some v) []
  | t :: rest => .mk none [(t, newNode rest v)]

/-- One iteration of the insertion loop of `_init_trie`
(`src/adeft/recognize.py` lines 169-179, `src/deft/recognize.py` lines
119-129): walk the key; when a token is missing create a fresh child (terminal
exactly at the last index), otherwise descend into the existing child without
writing anything (in particular an existing final node is never marked
terminal and a terminal final node is never overwritten). -/
def insertTokens (n : TrieNode) (key : List String) (v : String) : TrieNode :=
  match key with
  | [] => n
  | t :: rest =>
    match assocFind n.children t with
    | none => .mk n.longform (n.children ++ [(t, newNode rest v)])
    | some c => .mk n.longform (assocReplace n.children t (insertTokens c rest v))

/-- Embeds `_init_trie` (`src/adeft/recognize.py` lines 157-180,
`src/deft/recognize.py` lines 102-130): fold the insertion loop over the
grounding-map items in iteration order, starting from a fresh root.  `ks` is
the list of (trie insertion key, stored value) pairs: in the adeft revision
the key is the reversed stemmed token sequence of a longform and the stored
value is the longform itself; in the deft revision the grounding map is
already keyed by reversed-stemmed-token tuples and the stored value is the
grounding. -/
def initTrie (ks : List (List String × String)) : TrieNode :=
  ks.foldl (fun n e => insertTokens n e.1 e.2) (.mk none [])

/-- Value found by following a path from a node: `some v` exactly when the
path exists and its final node is terminal with value `v`. -/
def valueAt : TrieNode → List String → Option String
  | n, [] => n.longform
  | n, t :: rest =>
    match assocFind n.children t with
    | none => none
    | some c => valueAt c rest

/-- Whether the path from a node exists in the trie. -/
def hasPath : TrieNode → List String → Bool
  | _, [] => true
  | n, t :: rest =>
    match assocFind n.children t with
    | none => false
    | some c => hasPath c rest

/-- Embeds `_search` (`src/adeft/recognize.py` lines 199-206,
`src/deft/recognize.py` lines 149-158): walk from the node consuming tokens;
stop with no match when a child is missing (`break`) or when the tokens run
out; return the child's value immediately on reaching a terminal child. -/
def searchTrie : TrieNode → List String → Option String
  | _, [] => none
  | n, t :: rest =>
    match assocFind n.children t with
    | none => none
    | some c =>
      match c.longform with
      | some v => some v
      | none => searchTrie c rest

theorem assocFind_append_of_some {l : List (String × TrieNode)} {s : String}
    {c : TrieNode} (t : String) (x : TrieNode) (h : assocFind l s = some c) :
    assocFind (l ++ [(t, x)]) s = some c := by
  induction l with
  | nil => simp [assocFind] at h
  | cons e rest ih =>
    obtain ⟨a, b⟩ := e
    by_cases ha : a = s <;> simp [assocFind, ha] at h ⊢ <;> simp_all

theorem assocFind_append_of_none {l : List (String × TrieNode)} {s : String}
    (t : String) (x : TrieNode) (h : assocFind l s = none) :
    assocFind (l ++ [(t, x)]) s = if t = s then some x else none := by
  induction l with
  | nil => simp [assocFind]
  | cons e rest ih =>
    obtain ⟨a, b⟩ := e
    by_cases ha : a = s <;> simp [assocFind, ha] at h ⊢ <;> simp_all

theorem assocFind_replace_self {l : List (String × TrieNode)} {t : String}
    {c : TrieNode} (x : TrieNode) (h : assocFind l t = some c) :
    assocFind (assocReplace l t x) t = some x := by
  induction l with
  | nil => simp [assocFind] at h
  | cons e rest ih =>
    obtain ⟨a, b⟩ := e
    by_cases ha : a = t <;> simp [assocFind, assocReplace, ha] at h ⊢ <;> simp_all

theorem assocFind_replace_ne {l : List (String × TrieNode)} {t s : String}
    (x : TrieNode) (h : t ≠ s) :
    assocFind (assocReplace l t x) s = assocFind l s := by
  induction l with
  | nil => simp [assocFind, assocReplace]
  | cons e rest ih =>
    obtain ⟨a, b⟩ := e
    by_cases ha : a = t
    · subst ha
      simp [assocFind, assocReplace, h]
    · by_cases hs : a = s
      · subst hs
        simp [assocFind, assocReplace, ha]
      · simp [assocFind, assocReplace, ha, hs, ih]

theorem hasPath_newNode (p : List String) :
    ∀ (k : List String) (v : String), (hasPath (newNode k v) p = true ↔ p <+: k) := by
  induction p with
  | nil => intro k v; simp [hasPath, List.nil_prefix]
  | cons s pr ih =>
    intro k v
    match k with
    | [] => simp [newNode, hasPath, TrieNode.children, assocFind]
    | t :: kr =>
      by_cases hst : t = s
      · subst hst
        simp [newNode, hasPath, TrieNode.children, assocFind, ih, List.cons_prefix_cons]
      · simp [newNode, hasPath, TrieNode.children, assocFind, hst, List.cons_prefix_cons]
        exact fun he => absurd he.symm hst

theorem valueAt_newNode (p : List String) :
    ∀ (k : List String) (v : String),
      valueAt (newNode k v) p = if p = k then some v else none := by
  induction p with
  | nil =>
    intro k v
    match k with
    | [] => simp [newNode, valueAt, TrieNode.longform]
    | t :: kr => simp [newNode, valueAt, TrieNode.longform]
  | cons s pr ih =>
    intro k v
    match k with
    | [] => simp [newNode, valueAt, TrieNode.children, assocFind]
    | t :: kr =>
      by_cases hst : t = s
      · subst hst
        simp [newNode, valueAt, TrieNode.children, assocFind, ih]
      · simp [newNode, valueAt, TrieNode.children, assocFind, hst, List.cons.injEq]
        rw [if_neg (fun hc => absurd hc.1.symm hst)]

theorem hasPath_of_valueAt_some {n : TrieNode} {p : List String} {w : String}
    (h : valueAt n p = some w) : hasPath n p = true := by
  induction p generalizing n with
  | nil => simp [hasPath]
  | cons s pr ih =>
    simp only [valueAt] at h
    simp only [hasPath]
    cases hf : assocFind n.children s with
    | none => rw [hf] at h; cases h
    | some c => rw [hf] at h; exact ih h

theorem valueAt_of_not_hasPath {n : TrieNode} {p : List String}
    (h : hasPath n p = false) : valueAt n p = none := by
  cases hv : valueAt n p with
  | none => rfl
  | some w => rw [hasPath_of_valueAt_some hv] at h; cases h

theorem hasPath_insertTokens (p : List String) :
    ∀ (n : TrieNode) (k : List String) (v : String),
      (hasPath (insertTokens n k v) p = true ↔ (hasPath n p = true ∨ p <+: k)) := by
  induction p with
  | nil => intro n k v; simp [hasPath, List.nil_prefix]
  | cons s pr ih =>
    intro n k v
    match k with
    | [] => simp [insertTokens, List.prefix_nil]
    | t :: kr =>
      cases hf : assocFind n.children t with
      | none =>
        simp only [insertTokens, hf]
        cases hg : assocFind n.children s with
        | some c =>
          have hts : t ≠ s := by
            intro he; rw [he, hg] at hf; cases hf
          simp only [hasPath, children_mk,
            assocFind_append_of_some t (newNode kr v) hg, hg, List.cons_prefix_cons]
          tauto
        | none =>
          by_cases hts : t = s
          · subst hts
            simp only [hasPath, children_mk,
              assocFind_append_of_none t (newNode kr v) hg, if_pos rfl, hg,
              List.cons_prefix_cons]
            have := hasPath_newNode pr kr v
            tauto
          · simp only [hasPath, children_mk,
              assocFind_append_of_none t (newNode kr v) hg, if_neg hts, hg,
              List.cons_prefix_cons]
            constructor
            · intro h; cases h
            · rintro (h | ⟨he, _⟩)
              · cases h
              · exact absurd he.symm hts
      | some c =>
        simp only [insertTokens, hf]
        by_cases hts : t = s
        · subst hts
          simp only [hasPath, children_mk,
            assocFind_replace_self (insertTokens c kr v) hf, hf,
            List.cons_prefix_cons]
          have := ih c kr v
          tauto
        · simp only [hasPath, children_mk,
            assocFind_replace_ne (insertTokens c kr v) hts,
            List.cons_prefix_cons]
          cases hg : assocFind n.children s with
          | none =>
            constructor
            · intro h; cases h
            · rintro (h | ⟨he, _⟩)
              · cases h
              · exact absurd he.symm hts
          | some d =>
            constructor
            · exact Or.inl
            · rintro (h | ⟨he, _⟩)
              · exact h
              · exact absurd he.symm hts

theorem valueAt_insertTokens (p : List String) :
    ∀ (n : TrieNode) (k : List String) (v : String),
      valueAt (insertTokens n k v) p =
        if hasPath n p then valueAt n p
        else if p = k then some v else none := by
  induction p with
  | nil =>
    intro n k v
    simp only [hasPath, if_true]
    match k with
    | [] => rfl
    | t :: kr =>
      cases hf : assocFind n.children t with
      | none => simp [insertTokens, hf, valueAt, longform_mk]
      | some c => simp [insertTokens, hf, valueAt, longform_mk]
  | cons s pr ih =>
    intro n k v
    match k with
    | [] =>
      simp only [insertTokens]
      cases hp : hasPath n (s :: pr) with
      | true => simp
      | false => simp [valueAt_of_not_hasPath hp]
    | t :: kr =>
      cases hf : assocFind n.children t with
      | none =>
        simp only [insertTokens, hf]
        cases hg : assocFind n.children s with
        | some c =>
          have hts : t ≠ s := by
            intro he; rw [he, hg] at hf; cases hf
          have hL : valueAt (TrieNode.mk n.longform
              (n.children ++ [(t, newNode kr v)])) (s :: pr) = valueAt c pr := by
            simp only [valueAt, children_mk, assocFind_append_of_some t (newNode kr v) hg]
          have hP : hasPath n (s :: pr) = hasPath c pr := by
            simp only [hasPath, hg]
          have hV : valueAt n (s :: pr) = valueAt c pr := by
            simp only [valueAt, hg]
          rw [hL, hP, hV]
          cases hc : hasPath c pr with
          | true => simp
          | false =>
            simp only [Bool.false_eq_true, if_false, valueAt_of_not_hasPath hc]
            rw [if_neg (fun he => absurd (List.cons.injEq .. ▸ he).1.symm hts)]
        | none =>
          have hP : hasPath n (s :: pr) = false := by
            simp only [hasPath, hg]
          rw [hP]
          by_cases hts : t = s
          · subst hts
            have hL : valueAt (TrieNode.mk n.longform
                (n.children ++ [(t, newNode kr v)])) (t :: pr) =
                valueAt (newNode kr v) pr := by
              simp only [valueAt, children_mk,
                assocFind_append_of_none t (newNode kr v) hg, if_pos rfl]
              simp
            rw [hL, valueAt_newNode]
            simp [List.cons.injEq]
          · have hL : valueAt (TrieNode.mk n.longform
                (n.children ++ [(t, newNode kr v)])) (s :: pr) = none := by
              simp only [valueAt, children_mk,
                assocFind_append_of_none t (newNode kr v) hg, if_neg hts]
            rw [hL]
            simp only [Bool.false_eq_true, if_false]
            rw [if_neg (fun he => absurd (List.cons.injEq .. ▸ he).1.symm hts)]
      | some c =>
        simp only [insertTokens, hf]
        by_cases hts : t = s
        · subst hts
          have hL : valueAt (TrieNode.mk n.longform
              (assocReplace n.children t (insertTokens c kr v))) (t :: pr) =
              valueAt (insertTokens c kr v) pr := by
            simp only [valueAt, children_mk,
              assocFind_replace_self (insertTokens c kr v) hf]
          have hP : hasPath n (t :: pr) = hasPath c pr := by
            simp only [hasPath, hf]
          have hV : valueAt n (t :: pr) = valueAt c pr := by
            simp only [valueAt, hf]
          rw [hL, hP, hV, ih c kr v]
          simp [List.cons.injEq]
        · have hL : valueAt (TrieNode.mk n.longform
              (assocReplace n.children t (insertTokens c kr v))) (s :: pr) =
              valueAt n (s :: pr) := by
            simp only [valueAt, children_mk,
              assocFind_replace_ne (insertTokens c kr v) hts]
          rw [hL]
          cases hp : hasPath n (s :: pr) with
          | true => simp
          | false =>
            simp only [Bool.false_eq_true, if_false, valueAt_of_not_hasPath hp]
            rw [if_neg (fun he => absurd (List.cons.injEq .. ▸ he).1.symm hts)]

theorem valueAt_foldl_of_some :
    ∀ (ks : List (List String × String)) (n : TrieNode) (p : List String)
      (w : String), valueAt n p = some w →
      valueAt (ks.foldl (fun m e => insertTokens m e.1 e.2) n) p = some w := by
  intro ks
  induction ks with
  | nil => intro n p w h; exact h
  | cons e rest ih =>
    intro n p w h
    simp only [List.foldl_cons]
    apply ih
    rw [valueAt_insertTokens, if_pos (hasPath_of_valueAt_some h)]
    exact h

theorem valueAt_foldl_of_hasPath :
    ∀ (ks : List (List String × String)) (n : TrieNode) (p : List String),
      hasPath n p = true →
      valueAt (ks.foldl (fun m e => insertTokens m e.1 e.2) n) p = valueAt n p := by
  intro ks
  induction ks with
  | nil => intro n p _; rfl
  | cons e rest ih =>
    intro n p h
    simp only [List.foldl_cons]
    rw [ih _ _ ((hasPath_insertTokens p n e.1 e.2).mpr (Or.inl h))]
    rw [valueAt_insertTokens, if_pos h]

theorem hasPath_foldl :
    ∀ (ks : List (List String × String)) (n : TrieNode) (p : List String),
      (hasPath (ks.foldl (fun m e => insertTokens m e.1 e.2) n) p = true ↔
        hasPath n p = true ∨ ∃ e ∈ ks, p <+: e.1) := by
  intro ks
  induction ks with
  | nil => intro n p; simp
  | cons e rest ih =>
    intro n p
    simp only [List.foldl_cons, ih, hasPath_insertTokens, List.mem_cons]
    constructor
    · rintro ((h | h) | ⟨f, hf, hp⟩)
      · exact Or.inl h
      · exact Or.inr ⟨e, Or.inl rfl, h⟩
      · exact Or.inr ⟨f, Or.inr hf, hp⟩
    · rintro (h | ⟨f, hf | hf, hp⟩)
      · exact Or.inl (Or.inl h)
      · exact Or.inl (Or.inr (hf ▸ hp))
      · exact Or.inr ⟨f, hf, hp⟩

theorem valueAt_foldl_mem :
    ∀ (ks : List (List String × String)) (n : TrieNode) (p : List String)
      (w : String),
      valueAt (ks.foldl (fun m e => insertTokens m e.1 e.2) n) p = some w →
      valueAt n p = some w ∨ (p, w) ∈ ks := by
  intro ks
  induction ks with
  | nil => intro n p w h; exact Or.inl h
  | cons e rest ih =>
    intro n p w h
    simp only [List.foldl_cons] at h
    rcases ih _ _ _ h with h1 | h1
    · rw [valueAt_insertTokens] at h1
      by_cases hp : hasPath n p = true
      · rw [if_pos hp] at h1; exact Or.inl h1
      · rw [if_neg hp] at h1
        by_cases hk : p = e.1
        · rw [if_pos hk] at h1
          injection h1 with h2
          right
          rw [hk, ← h2]
          exact List.mem_cons_self _ _
        · rw [if_neg hk] at h1; cases h1
    · exact Or.inr (List.mem_cons_of_mem _ h1)

theorem valueAt_rootNode (p : List String) :
    valueAt (TrieNode.mk none []) p = none := by
  cases p with
  | nil => rfl
  | cons t rest => simp [valueAt, children_mk, assocFind]

theorem hasPath_rootNode (p : List String) :
    (hasPath (TrieNode.mk none []) p = true ↔ p = []) := by
  cases p with
  | nil => simp [hasPath]
  | cons t rest => simp [hasPath, children_mk, assocFind]

theorem valueAt_initTrie_mem {ks : List (List String × String)}
    {p : List String} {w : String} (h : valueAt (initTrie ks) p = some w) :
    (p, w) ∈ ks := by
  rcases valueAt_foldl_mem ks _ p w h with h0 | h1
  · rw [valueAt_rootNode] at h0; cases h0
  · exact h1

theorem freshTerminalAfter (pre post : List (List String × String))
    (k : List String) (v : String) (hk : k ≠ [])
    (hpre : ∀ e ∈ pre, ¬ k <+: e.1) :
    valueAt (initTrie (pre ++ (k, v) :: post)) k = some v := by
  unfold initTrie
  rw [List.foldl_append, List.foldl_cons]
  have hA : ¬ (hasPath (pre.foldl (fun m e => insertTokens m e.1 e.2)
      (TrieNode.mk none [])) k = true) := by
    rw [hasPath_foldl]
    rintro (h | ⟨f, hf, hp⟩)
    · rw [hasPath_rootNode] at h
      exact hk h
    · exact hpre f hf hp
  apply valueAt_foldl_of_some
  rw [valueAt_insertTokens, if_neg hA, if_pos rfl]

theorem innerNone (pre post : List (List String × String))
    (k : List String) (v : String) (q : List String)
    (hq1 : q <+: k) (hq3 : q ≠ k)
    (hpre : ∀ e ∈ pre, ¬ e.1 <+: k) :
    valueAt (initTrie (pre ++ (k, v) :: post)) q = none := by
  unfold initTrie
  rw [List.foldl_append, List.foldl_cons]
  have hB : hasPath (insertTokens (pre.foldl (fun m e => insertTokens m e.1 e.2)
      (TrieNode.mk none [])) k v) q = true :=
    (hasPath_insertTokens q _ k v).mpr (Or.inr hq1)
  rw [valueAt_foldl_of_hasPath _ _ _ hB]
  rw [valueAt_insertTokens]
  by_cases hA : hasPath (pre.foldl (fun m e => insertTokens m e.1 e.2)
      (TrieNode.mk none [])) q = true
  · rw [if_pos hA]
    cases hv : valueAt (pre.foldl (fun m e => insertTokens m e.1 e.2)
        (TrieNode.mk none [])) q with
    | none => rfl
    | some w =>
      exfalso
      rcases valueAt_foldl_mem pre _ q w hv with h0 | h1
      · rw [valueAt_rootNode] at h0; cases h0
      · exact hpre _ h1 hq1
  · rw [if_neg hA, if_neg hq3]

theorem searchEqOfFirst (n : TrieNode) (ts p : List String) (v : String)
    (hp : p <+: ts) (hne : p ≠ []) (hv : valueAt n p = some v)
    (hmin : ∀ q, q <+: p → q ≠ [] → q ≠ p → valueAt n q = none) :
    searchTrie n ts = some v := by
  induction p generalizing n ts with
  | nil => exact absurd rfl hne
  | cons t pr ih =>
    obtain ⟨ts2, rfl⟩ := hp
    simp only [valueAt] at hv
    cases hf : assocFind n.children t with
    | none => rw [hf] at hv; cases hv
    | some c =>
      rw [hf] at hv
      show searchTrie n (t :: (pr ++ ts2)) = some v
      simp only [searchTrie, hf]
      cases pr with
      | nil =>
        simp only [valueAt] at hv
        rw [hv]
      | cons u pr2 =>
        have hcl : c.longform = none := by
          have h1 := hmin [t] ⟨u :: pr2, rfl⟩ (by simp) (by simp)
          simp only [valueAt, hf] at h1
          exact h1
        rw [hcl]
        apply ih c ((u :: pr2) ++ ts2) (List.prefix_append _ _) (by simp) hv
        intro q hq1 hq2 hq3
        have h2 := hmin (t :: q) (List.cons_prefix_cons.mpr ⟨rfl, hq1⟩) (by simp)
          (fun he => hq3 (by injection he))
        simp only [valueAt, hf] at h2
        exact h2

theorem searchSomeFirst (n : TrieNode) (ts : List String) (v : String)
    (h : searchTrie n ts = some v) :
    ∃ p, p <+: ts ∧ p ≠ [] ∧ valueAt n p = some v ∧
      ∀ q, q <+: p → q ≠ [] → q ≠ p → valueAt n q = none := by
  induction ts generalizing n with
  | nil => cases h
  | cons t rest ih =>
    simp only [searchTrie] at h
    cases hf : assocFind n.children t with
    | none => rw [hf] at h; cases h
    | some c =>
      simp only [hf] at h
      cases hcl : c.longform with
      | some w =>
        simp only [hcl] at h
        injection h with h2
        subst h2
        refine ⟨[t], ⟨rest, rfl⟩, by simp, ?_, ?_⟩
        · simp only [valueAt, hf]
          exact hcl
        · intro q hq1 hq2 hq3
          exfalso
          rcases hq1 with ⟨q2, hq4⟩
          cases q with
          | nil => exact hq2 rfl
          | cons a q3 =>
            injection hq4 with h5 h6
            cases q3 with
            | nil => exact hq3 (by rw [h5])
            | cons b q4 => cases h6
      | none =>
        simp only [hcl] at h
        obtain ⟨p2, hp2, hne2, hv2, hmin2⟩ := ih c h
        refine ⟨t :: p2, List.cons_prefix_cons.mpr ⟨rfl, hp2⟩, by simp, ?_, ?_⟩
        · simp only [valueAt, hf]
          exact hv2
        · intro q hq1 hq2 hq3
          cases q with
          | nil => exact absurd rfl hq2
          | cons u q2 =>
            obtain ⟨rfl, hq4⟩ := List.cons_prefix_cons.mp hq1
            cases q2 with
            | nil =>
              simp only [valueAt, hf]
              exact hcl
            | cons w q3 =>
              simp only [valueAt, hf]
              exact hmin2 (w :: q3) hq4 (by simp) (fun he => hq3 (by rw [he]))

theorem searchCore (pre post : List (List String × String))
    (k : List String) (v : String) (ts : List String)
    (hk : k ≠ []) (hts : k <+: ts)
    (hpre : ∀ e ∈ pre, ¬ e.1 <+: k ∧ ¬ k <+: e.1) :
    searchTrie (initTrie (pre ++ (k, v) :: post)) ts = some v := by
  apply searchEqOfFirst _ _ k v hts hk
  · exact freshTerminalAfter pre post k v hk (fun e he => (hpre e he).2)
  · intro q hq1 _ hq3
    exact innerNone pre post k v q hq1 hq3 (fun e he => (hpre e he).1)

/-- Trie insertion key of a longform in the adeft revision
(`src/adeft/recognize.py` lines 167-168): stem every token produced by the
external tokenizer, then reverse.  The tokenizer and the stemmer live in
`adeft.nlp` / NLTK, outside the sources, and are passed as parameters. -/
def adeftKey (stem : String → String) (tok : String → List String)
    (L : String) : List String :=
  ((tok L).map stem).reverse

/-- Items inserted into the trie by the adeft `_init_trie`
(`src/adeft/recognize.py` lines 166-168), in grounding-map iteration order:
the key is the reversed stemmed token sequence of the longform and the stored
value is the longform itself (`new = _TrieNode(longform)`). -/
def adeftEntries (stem : String → String) (tok : String → List String)
    (gm : List (String × String)) : List (List String × String) :=
  gm.map (fun e => (adeftKey stem tok e.1, e.1))

/-- Trie built by `AdeftRecognizer.__init__` from a grounding map. -/
def adeftTrie (stem : String → String) (tok : String → List String)
    (gm : List (String × String)) : TrieNode :=
  initTrie (adeftEntries stem tok gm)

/-- Python `dict` lookup (`self.grounding_map[longform]`) on the
association-list model: first binding wins; `none` models a `KeyError`. -/
def lookupAssoc (l : List (String × String)) (k : String) : Option String :=
  match l with
  | [] => none
  | (a, b) :: rest => if a = k then some b else lookupAssoc rest k

/-- Embeds `_post_process` (`src/adeft/recognize.py` lines 208-209): look the
matched longform up in the grounding map. -/
def postProcess (gm : List (String × String)) (lf : String) : Option String :=
  lookupAssoc gm lf

/-- Embeds `BaseRecognizer.recognize` (`src/adeft/recognize.py` lines 28-43)
for the adeft recognizer.  The external `get_candidate_fragments` /
`get_candidate` collaborators are abstracted: `cands` is the list of candidate
token sequences obtained from the non-empty fragments of a text.  Each
candidate is reversed and stemmed, then searched in the trie; a truthy result
(Python `if longform:` — a non-empty string) is post-processed by looking it
up in the grounding map, a failed lookup being a `KeyError` that aborts the
call (`none`).  Python accumulates the groundings in a `set`; the model keeps
a list, which is what the membership property below needs. -/
def adeftStep (stem : String → String) (tok : String → List String)
    (gm : List (String × String)) (acc : List String) (c : List String) :
    Option (List String) :=
  match searchTrie (adeftTrie stem tok gm) ((c.reverse).map stem) with
  | none => some acc
  | some lf =>
    if lf = "" then some acc
    else
      match lookupAssoc gm lf with
      | none => none
      | some g => some (acc ++ [g])

/-- Loop of `BaseRecognizer.recognize` over the candidates. -/
def adeftRecognize (stem : String → String) (tok : String → List String)
    (gm : List (String × String)) (cands : List (List String)) :
    Option (List String) :=
  cands.foldlM (adeftStep stem tok gm) []

/-- Search results of the deft `Recognizer.recognize`
(`src/deft/recognize.py` lines 84-90): one trie search per candidate (the
candidate is reversed, then stemmed), collected into a Python `set` —
modelled as a deduplicated list of `Option String`, which faithfully records
membership.  The set contains `none` for every candidate whose search found
no longform. -/
def deftResults (trie : TrieNode) (stem : String → String)
    (cands : List (List String)) : List (Option String) :=
  (cands.map (fun c => searchTrie trie ((c.reverse).map stem))).dedup

/-- Possible return values of the deft `recognize`
(`src/deft/recognize.py` line 100): `groundings.pop() if groundings else
None`.  `set.pop` removes an arbitrary element, so the model is the list of
values the call may return. -/
def deftPossible (trie : TrieNode) (stem : String → String)
    (cands : List (List String)) : List (Option String) :=
  let rs := deftResults trie stem cands
  if rs.isEmpty then [none] else rs

/-- Condition under which the deft `recognize` emits its multiple-groundings
log message (`src/deft/recognize.py` lines 93-97): `len(groundings) > 1`. -/
def deftLogsMultiple (trie : TrieNode) (stem : String → String)
    (cands : List (List String)) : Bool :=
  1 < (deftResults trie stem cands).length

/-- Python list indexing `tokens[j]` with an `Int` index: a negative index
wraps once from the end; anything outside `[-len, len)` raises `IndexError`,
modelled as `none`. -/
def pyGet (xs : List String) (j : Int) : Option String :=
  if 0 ≤ j then
    if j < (xs.length : Int) then xs.get? j.toNat else none
  else
    if (xs.length : Int) + j < 0 then none
    else xs.get? ((xs.length : Int) + j).toNat

/-- Python `re.match(r'\w+', token)` (ASCII): the token starts with a word
character. -/
def isWordTok (t : String) : Bool :=
  match t.data with
  | [] => false
  | c :: _ => c.isAlphanum || c = '_'

theorem pyGet_some_bound {xs : List String} {j : Int} {a : String}
    (h : pyGet xs j = some a) :
    -(xs.length : Int) ≤ j ∧ j < (xs.length : Int) := by
  by_cases h1 : 0 ≤ j
  · by_cases h2 : j < (xs.length : Int)
    · exact ⟨by omega, h2⟩
    · exfalso
      unfold pyGet at h
      rw [if_pos h1, if_neg h2] at h
      cases h
  · by_cases h3 : (xs.length : Int) + j < 0
    · exfalso
      unfold pyGet at h
      rw [if_neg h1, if_pos h3] at h
      cases h
    · constructor <;> omega

/-- Embeds the backward deletion scan of `strip_defining_patterns`
(`src/adeft/recognize.py` lines 81-88): while `i < num_words`, read
`tokens[j]` (an out-of-range read is an `IndexError`, modelled as `none`),
increment `i` when the token matches `\w+`, decrement `j`, and break once
`i > 100`.  On normal exit return the final value of `j`. -/
def scanAux (tokens : List String) (numWords : Nat) (i : Nat) (j : Int) :
    Option Int :=
  if i < numWords then
    match hg : pyGet tokens j with
    | none => none
    | some tk =>
      let i2 := if isWordTok tk then i + 1 else i
      if i2 > 100 then some (j - 1) else scanAux tokens numWords i2 (j - 1)
  else some j
  termination_by (j + (tokens.length : Int) + 1).toNat
  decreasing_by
    have hb := pyGet_some_bound hg
    omega

/-- The scan as entered by `strip_defining_patterns` (line 82):
`i = 0`, `j = len(tokens) - 1`. -/
def deleteScan (tokens : List String) (numWords : Nat) : Option Int :=
  scanAux tokens numWords 0 ((tokens.length : Int) - 1)

/-- Whitespace for the purposes of Python `\s`, `str.split()` and
`str.strip()` (restricted to the common ASCII whitespace characters). -/
def isWs (c : Char) : Bool :=
  c = ' ' || c = '\t' || c = '\n' || c = '\r'

/-- Accumulator pass of Python `str.split()`: cut at whitespace runs and
drop empty pieces. -/
def splitWsAux : List Char → List Char → List (List Char)
  | [], acc => if acc.isEmpty then [] else [acc.reverse]
  | c :: cs, acc =>
    if isWs c then
      if acc.isEmpty then splitWsAux cs []
      else acc.reverse :: splitWsAux cs []
    else splitWsAux cs (c :: acc)

/-- Python `str.split()` with no argument: whitespace-separated words. -/
def splitWs (l : List Char) : List (List Char) :=
  splitWsAux l []

/-- Python `' '.join(words)`. -/
def joinWs : List (List Char) → List Char
  | [] => []
  | w :: [] => w
  | w :: w2 :: ws => w ++ ' ' :: joinWs (w2 :: ws)

/-- Embeds `' '.join(stripped_text.split())` (`src/adeft/recognize.py` line
95): collapse whitespace runs to single spaces and trim the ends. -/
def collapseWs (l : List Char) : List Char :=
  joinWs (splitWs l)

/-- Embeds `len(longform.split())` (`src/adeft/recognize.py` line 80). -/
def pySplitCount (s : String) : Nat :=
  (splitWs s.data).length

/-- Python `string.punctuation`, the 32 ASCII punctuation characters. -/
def pyPunct : List Char :=
  "!\"#$%&'()*+,-./:;<=>?@[\\]^_`\x7b|\x7d~".data

/-- Python `token in string.punctuation` (`src/adeft/recognize.py` line 73):
Python `in` on strings is a substring test. -/
def isPunctTok (t : String) : Bool :=
  decide (t.data <:+: pyPunct)

/-- Matcher, at the head of the text, for the regular expression
`\(\s*<shortform>\s*\)` used by `strip_defining_patterns`
(`src/adeft/recognize.py` lines 92-94) and by the fragment extractor, for a
shortform that starts and ends with a non-whitespace character and contains
no regex metacharacters: an opening parenthesis, optional whitespace, the
shortform, optional whitespace, a closing parenthesis.  Returns the
characters remaining after the match. -/
def matchPat (sf : List Char) : List Char → Option (List Char)
  | [] => none
  | c :: cs =>
    if c = '(' then
      let cs1 := cs.dropWhile (fun d => isWs d)
      if sf.isPrefixOf cs1 then
        match (cs1.drop sf.length).dropWhile (fun d => isWs d) with
        | [] => none
        | d :: rest => if d = ')' then some rest else none
      else none
    else none

theorem matchPat_length {sf : List Char} : ∀ {l r : List Char},
    matchPat sf l = some r → r.length < l.length := by
  intro l r h
  match l with
  | [] => cases h
  | c :: cs =>
    simp only [matchPat] at h
    split_ifs at h with h1 h2
    · cases hm : (((cs.dropWhile (fun d => isWs d)).drop
          sf.length).dropWhile (fun d => isWs d)) with
      | nil =>
        simp only [hm] at h
        cases h
      | cons d rest =>
        simp only [hm] at h
        split_ifs at h with h3
        · injection h with h4
          subst h4
          have l1 : (d :: rest).length ≤
              ((cs.dropWhile (fun d => isWs d)).drop sf.length).length := by
            rw [← hm]; exact (List.dropWhile_sublist _).length_le
          have l2 : ((cs.dropWhile (fun d => isWs d)).drop sf.length).length ≤
              (cs.dropWhile (fun d => isWs d)).length := by
            rw [List.length_drop]; omega
          have l3 : (cs.dropWhile (fun d => isWs d)).length ≤ cs.length :=
            (List.dropWhile_sublist _).length_le
          simp only [List.length_cons] at l1 ⊢
          omega

/-- One occurrence test for the pattern anywhere in the text. -/
def hasPat (sf : List Char) : List Char → Bool
  | [] => false
  | c :: cs => (matchPat sf (c :: cs)).isSome || hasPat sf cs

/-- Worker for `re.sub`, structurally recursive on a character budget: every
step consumes at least one character of the text (`matchPat_length`), so a
budget equal to the text length never runs out and the zero-budget branch is
unreachable from the wrapper below. -/
def resubF (sf repl : List Char) : Nat → List Char → List Char
  | _, [] => []
  | 0, l => l
  | fuel + 1, c :: cs =>
    match matchPat sf (c :: cs) with
    | some rest => repl ++ resubF sf repl fuel rest
    | none => c :: resubF sf repl fuel cs

/-- Embeds `re.sub(r'\(\s*%s\s*\)' % shortform, ' ' + shortform + ' ', text)`
(`src/adeft/recognize.py` lines 92-94): replace every non-overlapping
occurrence of the pattern, left to right. -/
def resub (sf repl : List Char) (l : List Char) : List Char :=
  resubF sf repl l.length l

/-- Modelled from the spec: window and sentence bounding of a candidate
fragment (spec section 4.2 step 1) — keep at most the last 100 characters
preceding the pattern and cut at the last sentence-ending character. -/
def boundFrag (f : List Char) : List Char :=
  ((f.drop (f.length - 100)).reverse.takeWhile
    (fun c => !(c = '.' || c = '!' || c = '?'))).reverse

/-- Modelled from the spec: worker for `get_candidate_fragments(text,
shortform, window)` (`adeft.util`, absent from the sources; spec sections 1,
4.2 and 6) — emit, for each occurrence of the parenthesized shortform, the
text immediately preceding it (bounded by the window and the sentence start),
each fragment starting after the previous occurrence. -/
def fragAux (sf : List Char) : Nat → List Char → List Char → List (List Char)
  | _, [], _ => []
  | 0, _, _ => []
  | fuel + 1, c :: cs, acc =>
    match matchPat sf (c :: cs) with
    | some rest => boundFrag acc.reverse :: fragAux sf fuel rest []
    | none => fragAux sf fuel cs (c :: acc)

/-- Modelled from the spec: `get_candidate_fragments(text, shortform)` with
the default 100-character window.  The character budget equals the text
length and never runs out (`matchPat_length`). -/
def getFragments (sf text : List Char) : List (List Char) :=
  fragAux sf text.length text []

/-- Python `str.strip()`: trim whitespace from both ends. -/
def trimWs (l : List Char) : List Char :=
  ((l.dropWhile (fun c => isWs c)).reverse.dropWhile (fun c => isWs c)).reverse

/-- Python `text.replace(old, new)`: replace every non-overlapping occurrence
of `old`, left to right.  (With an empty `old` Python would interleave `new`
everywhere; the model leaves the text unchanged — the case is unreachable
from `strip_defining_patterns` on sensible tokenizers, since a whitespace-only
fragment yields no tokens and so no trie match.) -/
def replaceAllF (old new : List Char) : Nat → List Char → List Char
  | _, [] => []
  | 0, l => l
  | fuel + 1, c :: cs =>
    if old ≠ [] ∧ old.isPrefixOf (c :: cs) then
      new ++ replaceAllF old new fuel ((c :: cs).drop old.length)
    else c :: replaceAllF old new fuel cs

/-- Embeds `text.replace(old, new)` via the structural worker; the character
budget equals the text length and never runs out, each step consuming at
least one character. -/
def replaceAll (old new : List Char) (l : List Char) : List Char :=
  replaceAllF old new l.length l

/-- Modelled from the spec: `untokenize` (`adeft.nlp`, absent from the
sources; spec section 4.3 step 4) — reconstitute a tokenized fragment, each
token followed by its trailing whitespace. -/
def untokenizeM (toks : List (String × String)) : List Char :=
  (toks.map (fun p => p.1.data ++ p.2.data)).join

/-- Python slice `xs[:k]` for an `Int` bound: a negative bound counts from
the end of the list, clamped at zero. -/
def pySliceTo (xs : List (String × String)) (k : Int) : List (String × String) :=
  if 0 ≤ k then xs.take k.toNat
  else xs.take ((xs.length : Int) + k).toNat

/-- Embeds `strip_defining_patterns` (`src/adeft/recognize.py` lines 45-96).
`tokP` is the external `tokenize` (pairs of token text and trailing
whitespace), `stem` the external stemmer, `trie` the recognizer's trie, `sf`
the shortform.  For each candidate fragment of the text: tokenize it, search
the trie with the reversed, stemmed, punctuation-filtered token sequence; on
no match leave the text alone; on a match compute `num_words =
len(longform.split())`, run the backward deletion scan (an `IndexError`
aborts the whole call, modelled as `none`), and replace the stripped fragment
in the evolving text by the reconstituted prefix `untokenize(tokens[:j+1])`.
Finally replace every parenthesized shortform by the space-padded shortform
and collapse whitespace.  `stripStep` is the body of the fragment loop. -/
def stripStep (tokP : List Char → List (String × String))
    (stem : String → String) (trie : TrieNode)
    (txt frag : List Char) : Option (List Char) :=
  let toks := tokP frag
  let query := (toks.reverse).filterMap
    (fun p => if isPunctTok p.1 then none else some (stem p.1))
  match searchTrie trie query with
  | none => some txt
  | some lf =>
    let nw := pySplitCount lf
    match deleteScan (toks.map Prod.fst) nw with
    | none => none
    | some j =>
      some (replaceAll (trimWs frag) (untokenizeM (pySliceTo toks (j + 1))) txt)

/-- Loop of `strip_defining_patterns` over the fragments, followed by the
final substitution and whitespace collapse. -/
def stripDefiningPatterns (tokP : List Char → List (String × String))
    (stem : String → String) (trie : TrieNode) (sf : List Char)
    (text : List Char) : Option (List Char) := do
  let text1 ← (getFragments sf text).foldlM (stripStep tokP stem trie) text
  pure (collapseWs (resub sf (' ' :: (sf ++ [' '])) text1))

theorem insertTokens_longform (n : TrieNode) (k : List String) (v : String) :
    (insertTokens n k v).longform = n.longform := by
  match k with
  | [] => rfl
  | t :: kr =>
    cases hf : assocFind n.children t <;> simp [insertTokens, hf, longform_mk]

theorem initTrie_longform (ks : List (List String × String)) :
    (initTrie ks).longform = none := by
  have haux : ∀ (l : List (List String × String)) (n : TrieNode),
      (l.foldl (fun m e => insertTokens m e.1 e.2) n).longform = n.longform := by
    intro l
    induction l with
    | nil => intro n; rfl
    | cons e rest ih =>
      intro n
      simp only [List.foldl_cons, ih, insertTokens_longform]
  exact haux ks _

theorem lookupAssoc_append_first {p1 : List (String × String)}
    (p2 : List (String × String)) {L g : String} (h : ∀ e ∈ p1, e.1 ≠ L) :
    lookupAssoc (p1 ++ (L, g) :: p2) L = some g := by
  induction p1 with
  | nil => simp [lookupAssoc]
  | cons e rest ih =>
    obtain ⟨a, b⟩ := e
    have ha : a ≠ L := h (a, b) (List.mem_cons_self _ _)
    simp only [List.cons_append, lookupAssoc, if_neg ha]
    exact ih (fun f hf => h f (List.mem_cons_of_mem _ hf))

theorem lookupAssoc_mem_of_key_mem {gm : List (String × String)}
    {l g : String} (h : (l, g) ∈ gm) :
    ∃ g2, lookupAssoc gm l = some g2 ∧ (l, g2) ∈ gm := by
  induction gm with
  | nil => cases h
  | cons e rest ih =>
    obtain ⟨a, b⟩ := e
    by_cases ha : a = l
    · subst ha
      exact ⟨b, by simp [lookupAssoc], List.mem_cons_self _ _⟩
    · rcases List.mem_cons.mp h with he | he
      · injection he with h1 h2
        exact absurd (by rw [h1]) ha
      · obtain ⟨g2, hg1, hg2⟩ := ih he
        exact ⟨g2, by simp [lookupAssoc, ha, hg1], List.mem_cons_of_mem _ hg2⟩

theorem searchTrie_initTrie_mem {ks : List (List String × String)}
    {q : List String} {v : String} (h : searchTrie (initTrie ks) q = some v) :
    ∃ p, (p, v) ∈ ks := by
  obtain ⟨p, _, _, hv, _⟩ := searchSomeFirst _ _ _ h
  exact ⟨p, valueAt_initTrie_mem hv⟩

/-- C6: searching the trie with an empty token sequence always returns no
match, and the root of the trie built from any grounding map — in particular
one containing an entry whose normalized key is empty, whose insertion loop
never runs — is never terminal, so such an entry can never be matched. -/
theorem c6_empty_cases (t : TrieNode) (ks : List (List String × String)) :
    searchTrie t [] = none ∧ (initTrie ks).longform = none :=
  ⟨rfl, initTrie_longform ks⟩

/-- C2 counterexample: in the trie built from the entries `["a","b"] ↦ "v2"`
(a longer reversed key, inserted first) and `["a"] ↦ "v1"` (a strict prefix
of it, inserted second), the node at the end of the path `["a"]` is NOT
terminal, although `["a"]` is exactly the reversed key of the second entry:
terminality is not insertion-order independent. -/
theorem c2_cex :
    valueAt (initTrie [(["a", "b"], "v2"), (["a"], "v1")]) ["a"] = none := by
  decide

/-- C2 amended: a node of the built trie is terminal only if its root path is
exactly the reversed key of some grounding-map entry (and it then carries
that entry's stored value); conversely an entry's final node is terminal with
the entry's value provided no earlier entry's key extends or equals the
entry's key — in particular when a shorter longform is inserted before every
longer longform whose reversed key extends its own, its terminal node lies
strictly above theirs (its path being a strict prefix).  With the longer
longform inserted first, the shorter longform's node stays non-terminal. -/
theorem c2_terminal_characterization :
    (∀ (ks : List (List String × String)) (p : List String) (w : String),
      valueAt (initTrie ks) p = some w → (p, w) ∈ ks) ∧
    (∀ (pre post : List (List String × String)) (k : List String) (v : String),
      k ≠ [] → (∀ e ∈ pre, ¬ k <+: e.1) →
      valueAt (initTrie (pre ++ (k, v) :: post)) k = some v) :=
  ⟨fun _ _ _ h => valueAt_initTrie_mem h,
   fun pre post k v hk hpre => freshTerminalAfter pre post k v hk hpre⟩

/-- C2 witness: the second part applied to a concrete two-longform map with
the shorter key inserted after an incomparable key. -/
theorem c2_terminal_characterization_witness :
    valueAt (initTrie ([(["b", "c"], "v2")] ++ (["a"], "v1") :: [])) ["a"]
      = some "v1" :=
  c2_terminal_characterization.2 [(["b", "c"], "v2")] [] ["a"] "v1"
    (by decide) (by decide)

/-- C5 counterexample: the longforms "runs" and "run" normalize (under a
stemmer behaving like the English snowball stemmer on them) to the identical
reversed key `["run"]`; the terminal value at the shared final node is the
value of the EARLIER pair ("runs"), not of the later pair as claimed. -/
theorem c5_cex :
    valueAt (adeftTrie (fun s => if s = "runs" then "run" else s)
        (fun s => [s]) [("runs", "g1"), ("run", "g2")]) ["run"] ≠ some "run" ∧
    valueAt (adeftTrie (fun s => if s = "runs" then "run" else s)
        (fun s => [s]) [("runs", "g1"), ("run", "g2")]) ["run"] = some "runs" := by
  constructor
  · decide
  · decide

/-- C5 amended: when two entries of the grounding map normalize to the
identical reversed key, the trie keeps the EARLIER pair's terminal value and
silently ignores the later pair (provided no still-earlier entry's key
extends or equals the shared key). -/
theorem c5_first_pair_wins (pre mid post : List (List String × String))
    (k : List String) (v1 v2 : String) (hk : k ≠ [])
    (hpre : ∀ e ∈ pre, ¬ k <+: e.1) :
    valueAt (initTrie (pre ++ (k, v1) :: (mid ++ (k, v2) :: post))) k
      = some v1 :=
  freshTerminalAfter pre (mid ++ (k, v2) :: post) k v1 hk hpre

/-- C5 witness: the amended first-wins statement at the concrete collision. -/
theorem c5_first_pair_wins_witness :
    valueAt (initTrie ([] ++ (["run"], "runs") :: ([] ++ (["run"], "run") :: [])))
      ["run"] = some "runs" :=
  c5_first_pair_wins [] [] [] ["run"] "runs" "run" (by decide) (by decide)

/-- C3: the trie search returns `some v` exactly when some nonempty prefix of
the reversed token sequence ends at a terminal node holding `v` while every
shorter nonempty prefix ends at an existing non-terminal node — i.e. the walk
consumes tokens one at a time, stops with no match when the next child is
missing, returns the first terminal child's value immediately without
descending further, and returns no match when the tokens are exhausted
without reaching a terminal node. -/
theorem c3_search_first_terminal (n : TrieNode) (ts : List String) (v : String) :
    searchTrie n ts = some v ↔
      ∃ p, p <+: ts ∧ p ≠ [] ∧ valueAt n p = some v ∧
        ∀ q, q <+: p → q ≠ [] → q ≠ p → valueAt n q = none :=
  ⟨searchSomeFirst n ts v,
   fun ⟨p, hp, hne, hv, hmin⟩ => searchEqOfFirst n ts p v hp hne hv hmin⟩

/-- C3 witness: the forward direction at a concrete trie and query. -/
theorem c3_search_first_terminal_witness :
    ∃ p, p <+: ["a", "b"] ∧ p ≠ [] ∧
      valueAt (TrieNode.mk none [("a", TrieNode.mk (some "g") [])]) p
        = some "g" ∧
      ∀ q, q <+: p → q ≠ [] → q ≠ p →
        valueAt (TrieNode.mk none [("a", TrieNode.mk (some "g") [])]) q
          = none :=
  (c3_search_first_terminal _ _ _).mp (by decide)

/-- C1 counterexample: in the grounding map with longforms "a" (grounding
"X", iterated first) and "b a" (grounding "Y"), whose reversed stemmed keys
are `["a"]` and `["a", "b"]`, building the trie and searching with the
reversed stemmed tokens of "b a" returns the longform "a", whose
post-processing yields "X" — not `G["b a"] = "Y"`: the round trip fails when
one reversed key is a prefix of another. -/
theorem c1_cex :
    (searchTrie (adeftTrie (fun s => s)
          (fun s => if s = "b a" then ["b", "a"] else [s]) [("a", "X"), ("b a", "Y")])
        (adeftKey (fun s => s) (fun s => if s = "b a" then ["b", "a"] else [s])
          "b a")).bind (postProcess [("a", "X"), ("b a", "Y")]) = some "X" ∧
    lookupAssoc [("a", "X"), ("b a", "Y")] "b a" = some "Y" ∧
    ("X" : String) ≠ "Y" := by
  refine ⟨by decide, by decide, by decide⟩

/-- C1 amended: the round trip holds for every longform of the grounding map
provided the reversed stemmed keys are nonempty and pairwise prefix-free (no
entry's key is a prefix of — in particular equal to — another entry's key):
the search then returns the longform itself, and its post-processing returns
exactly the longform's grounding. -/
theorem c1_round_trip (stem : String → String) (tok : String → List String)
    (gm : List (String × String)) (L g : String)
    (hmem : (L, g) ∈ gm)
    (hne : ∀ e ∈ gm, adeftKey stem tok e.1 ≠ [])
    (hpf : List.Pairwise (fun a b => ¬ a.1 <+: b.1 ∧ ¬ b.1 <+: a.1)
      (adeftEntries stem tok gm)) :
    searchTrie (adeftTrie stem tok gm) (adeftKey stem tok L) = some L ∧
    postProcess gm L = some g := by
  obtain ⟨p1, p2, rfl⟩ := List.append_of_mem hmem
  have hsplit : adeftEntries stem tok (p1 ++ (L, g) :: p2) =
      adeftEntries stem tok p1 ++
        (adeftKey stem tok L, L) :: adeftEntries stem tok p2 := by
    simp [adeftEntries]
  rw [hsplit] at hpf
  have hp := (List.pairwise_append.mp hpf).2.2
  constructor
  · rw [adeftTrie, hsplit]
    apply searchCore _ _ _ _ _ (hne (L, g) hmem) List.prefix_rfl
    intro E hE
    exact hp E hE _ (List.mem_cons_self _ _)
  · unfold postProcess
    apply lookupAssoc_append_first
    intro e he hekey
    have hEmem : (adeftKey stem tok e.1, e.1) ∈ adeftEntries stem tok p1 :=
      List.mem_map_of_mem _ he
    have hR := hp _ hEmem _ (List.mem_cons_self _ _)
    rw [hekey] at hR
    exact hR.1 List.prefix_rfl

/-- C1 witness: round trip at a concrete two-longform prefix-free map. -/
theorem c1_round_trip_witness :
    searchTrie (adeftTrie (fun s => s)
        (fun s => if s = "b c" then ["b", "c"] else [s]) [("a", "X"), ("b c", "Y")])
      (adeftKey (fun s => s) (fun s => if s = "b c" then ["b", "c"] else [s])
        "b c") = some "b c" ∧
    postProcess [("a", "X"), ("b c", "Y")] "b c" = some "Y" :=
  c1_round_trip (fun s => s) (fun s => if s = "b c" then ["b", "c"] else [s])
    [("a", "X"), ("b c", "Y")] "b c" "Y" (by decide) (by decide) (by decide)

/-- C4 counterexample: longforms L1 = "a" and L2 = "b a" (L1 a trailing token
subsequence of L2), with L2 iterated FIRST; searching with the candidate
token sequence of the defining pattern "b a (SF)" returns the grounding of
L2, not of L1: the claimed shortest-suffix precedence does not hold for this
insertion order. -/
theorem c4_cex :
    (searchTrie (adeftTrie (fun s => s)
          (fun s => if s = "b a" then ["b", "a"] else [s]) [("b a", "Y"), ("a", "X")])
        (adeftKey (fun s => s) (fun s => if s = "b a" then ["b", "a"] else [s])
          "b a")).bind (postProcess [("b a", "Y"), ("a", "X")]) = some "Y" ∧
    ("Y" : String) ≠ "X" := by
  refine ⟨by decide, by decide⟩

/-- C4 amended: shortest-suffix-wins holds when the shorter longform is
inserted before the longer one and no earlier entry's key is comparable with
the shorter key: searching with the longer longform's reversed key (the
candidate sequence of the defining pattern for the longer longform) returns
the shorter longform's stored value, whatever lies between or after them in
iteration order.  With the longer longform inserted first the search returns
the longer longform's value instead (see the counterexample). -/
theorem c4_shortest_suffix (pre mid post : List (List String × String))
    (k1 e2 : List String) (v1 v2 : String) (hk : k1 ≠ [])
    (hpre : ∀ E ∈ pre, ¬ E.1 <+: k1 ∧ ¬ k1 <+: E.1) :
    searchTrie (initTrie (pre ++ (k1, v1) :: (mid ++ (k1 ++ e2, v2) :: post)))
      (k1 ++ e2) = some v1 :=
  searchCore pre (mid ++ (k1 ++ e2, v2) :: post) k1 v1 (k1 ++ e2) hk
    (List.prefix_append k1 e2) hpre

/-- C4 witness: the amended precedence at a concrete two-entry map with the
shorter key first. -/
theorem c4_shortest_suffix_witness :
    searchTrie (initTrie ([] ++ (["a"], "a") :: ([] ++ (["a"] ++ ["b"], "b a") :: [])))
      (["a"] ++ ["b"]) = some "a" :=
  c4_shortest_suffix [] [] [] ["a"] ["b"] "a" "b a" (by decide) (by decide)

theorem adeftRecognize_aux (stem : String → String) (tok : String → List String)
    (gm : List (String × String)) :
    ∀ (cands : List (List String)) (acc : List String),
      (∀ g ∈ acc, ∃ l, (l, g) ∈ gm) →
      ∃ out, cands.foldlM (adeftStep stem tok gm) acc = some out ∧
        ∀ g ∈ out, ∃ l, (l, g) ∈ gm := by
  intro cands
  induction cands with
  | nil => intro acc hacc; exact ⟨acc, rfl, hacc⟩
  | cons c rest ih =>
    intro acc hacc
    have hstep : ∀ acc2, adeftStep stem tok gm acc c = some acc2 →
        (∀ g ∈ acc2, ∃ l, (l, g) ∈ gm) → 
        ∃ out, (c :: rest).foldlM (adeftStep stem tok gm) acc = some out ∧
          ∀ g ∈ out, ∃ l, (l, g) ∈ gm := by
      intro acc2 h2 hacc2
      obtain ⟨out, hout, hrange⟩ := ih acc2 hacc2
      refine ⟨out, ?_, hrange⟩
      simp only [List.foldlM_cons, h2, Option.bind_eq_bind, Option.some_bind]
      exact hout
    unfold adeftStep at hstep ⊢
    cases hs : searchTrie (adeftTrie stem tok gm) ((c.reverse).map stem) with
    | none => exact hstep acc (by rw [hs]) hacc
    | some lf =>
      by_cases hlf : lf = ""
      · exact hstep acc (by rw [hs]; simp [hlf]) hacc
      · obtain ⟨p, hpv⟩ := @searchTrie_initTrie_mem
          (adeftEntries stem tok gm) ((c.reverse).map stem) lf hs
        obtain ⟨e, hegm, heq⟩ := List.mem_map.mp hpv
        have h2 : e.1 = lf := congrArg Prod.snd heq
        have hlfmem : (lf, e.2) ∈ gm := by
          rw [← h2]; exact hegm
        obtain ⟨g2, hg2, hg2mem⟩ := lookupAssoc_mem_of_key_mem hlfmem
        refine hstep (acc ++ [g2]) (by rw [hs]; simp [hlf, hg2]) ?_
        intro g hg
        rcases List.mem_append.mp hg with hg | hg
        · exact hacc g hg
        · rw [List.mem_singleton] at hg
          subst hg
          exact ⟨lf, hg2mem⟩

/-- C10: the adeft `recognize` never fails — every longform returned by the
trie search and surviving the truthiness test is a key of the grounding map,
so the `_post_process` lookup cannot raise — and every element of its result
set is a value of the grounding map (the result is a subset of the range of
`grounding_map`). -/
theorem c10_recognize_range (stem : String → String) (tok : String → List String)
    (gm : List (String × String)) (cands : List (List String)) :
    ∃ out, adeftRecognize stem tok gm cands = some out ∧
      ∀ g ∈ out, ∃ l, (l, g) ∈ gm :=
  adeftRecognize_aux stem tok gm cands [] (by simp)

/-- C10 witness: the range property at a concrete map and candidate list. -/
theorem c10_recognize_range_witness :
    ∃ out, adeftRecognize (fun s => s) (fun s => [s]) [("a", "X")]
        [["a"], ["b"]] = some out ∧
      ∀ g ∈ out, ∃ l, (l, g) ∈ [("a", "X")] :=
  c10_recognize_range (fun s => s) (fun s => [s]) [("a", "X")] [["a"], ["b"]]

theorem dedup_all_none :
    ∀ (l : List (Option String)), (∀ x ∈ l, x = none) → l ≠ [] →
      l.dedup = [none] := by
  intro l
  induction l with
  | nil => intro _ h; exact absurd rfl h
  | cons a rest ih =>
    intro hall _
    have ha : a = none := hall a (List.mem_cons_self _ _)
    subst ha
    cases rest with
    | nil => simp
    | cons b rest2 =>
      have hb : b = none := hall b (List.mem_cons_of_mem _ (List.mem_cons_self _ _))
      have hmem : (none : Option String) ∈ b :: rest2 := by
        rw [hb]; exact List.mem_cons_self _ _
      rw [List.dedup_cons_of_mem hmem]
      exact ih (fun x hx => hall x (List.mem_cons_of_mem _ hx)) (by simp)

/-- C9 amended: the deft `recognize` (modelled on its possible `set.pop`
outcomes) returns `None` when no candidate's search matches; and every
possible return value is either `None` or a grounding stored in the map —
but because the result set also contains `None` for every unmatched
candidate, `None` remains a possible return even when some candidate did
match (see the counterexample), and the multiple-groundings log fires on any
result set with more than one element. -/
theorem c9_return_behavior :
    (∀ (trie : TrieNode) (stem : String → String) (cands : List (List String)),
      (∀ c ∈ cands, searchTrie trie ((c.reverse).map stem) = none) →
      deftPossible trie stem cands = [none]) ∧
    (∀ (ks : List (List String × String)) (stem : String → String)
        (cands : List (List String)) (g : String),
      some g ∈ deftPossible (initTrie ks) stem cands → ∃ k, (k, g) ∈ ks) := by
  constructor
  · intro trie stem cands hall
    unfold deftPossible deftResults
    cases cands with
    | nil => simp
    | cons c rest =>
      have hl : ∀ x ∈ (c :: rest).map
          (fun c => searchTrie trie ((c.reverse).map stem)), x = none := by
        intro x hx
        obtain ⟨c2, hc2, rfl⟩ := List.mem_map.mp hx
        exact hall c2 hc2
      rw [dedup_all_none _ hl (by simp)]
      simp
  · intro ks stem cands g hmem
    simp only [deftPossible] at hmem
    split_ifs at hmem with he
    · simp at hmem
    · unfold deftResults at hmem
      rw [List.mem_dedup] at hmem
      obtain ⟨c, _, heq⟩ := List.mem_map.mp hmem
      exact searchTrie_initTrie_mem heq

/-- C9 witness: the no-match part at a concrete trie and candidate list. -/
theorem c9_return_behavior_witness :
    deftPossible (initTrie [(["a"], "G")]) (fun s => s) [["b"]] = [none] :=
  c9_return_behavior.1 _ _ _ (by decide)

/-- C9 counterexample: with grounding map `["a"] ↦ "G"` and candidates "b"
(no match) and "a" (match), the set the deft `recognize` pops from contains
both `None` and the grounding: `None` — a non-grounding value — is a possible
return even though a candidate matched a grounding. -/
theorem c9_cex :
    (none : Option String) ∈ deftPossible (initTrie [(["a"], "G")])
      (fun s => s) [["b"], ["a"]] ∧
    some "G" ∈ deftPossible (initTrie [(["a"], "G")])
      (fun s => s) [["b"], ["a"]] := by
  refine ⟨by decide, by decide⟩

theorem scanAux_some (tokens : List String) (numWords : Nat) :
    ∀ (m : Nat) (i : Nat), m ≤ tokens.length →
      numWords ≤ i + ((tokens.take m).filter (fun t => isWordTok t)).length →
      (scanAux tokens numWords i ((m : Int) - 1)).isSome = true := by
  intro m
  induction m with
  | zero =>
    intro i _ hinv
    simp only [List.take_zero, List.filter_nil, List.length_nil, Nat.add_zero] at hinv
    rw [scanAux, if_neg (by omega)]
    simp
  | succ m ih =>
    intro i hm hinv
    have hstep : ((m + 1 : Nat) : Int) - 1 = (m : Int) := by push_cast; ring
    rw [hstep, scanAux]
    by_cases hi : i < numWords
    · rw [if_pos hi]
      have hm2 : m < tokens.length := by omega
      have hpg : pyGet tokens (m : Int) = some tokens[m] := by
        unfold pyGet
        rw [if_pos (by exact_mod_cast Nat.zero_le m),
          if_pos (by exact_mod_cast hm2)]
        simp [List.get?_eq_getElem?, List.getElem?_eq_getElem hm2]
      have h1 : tokens.take (m + 1) = tokens.take m ++ [tokens[m]] := by
        rw [List.take_succ, List.getElem?_eq_getElem hm2]
        rfl
      have htake : ((tokens.take (m + 1)).filter (fun t => isWordTok t)).length =
          ((tokens.take m).filter (fun t => isWordTok t)).length +
            (if isWordTok tokens[m] then 1 else 0) := by
        rw [h1, List.filter_append, List.length_append]
        by_cases hw : isWordTok tokens[m]
        · rw [if_pos hw]
          simp [List.filter, hw]
        · rw [if_neg hw]
          simp [List.filter, hw]
      split
      · next heq => rw [hpg] at heq; cases heq
      · next tk heq =>
        rw [hpg] at heq
        injection heq with heq2
        subst heq2
        by_cases hw : isWordTok tokens[m]
        · simp only [if_pos hw]
          by_cases hbig : i + 1 > 100
          · simp only [if_pos hbig, Option.isSome_some]
          · simp only [if_neg hbig]
            apply ih (i + 1) (by omega)
            rw [htake, if_pos hw] at hinv
            omega
        · simp only [if_neg hw]
          by_cases hbig : i > 100
          · simp only [if_pos hbig, Option.isSome_some]
          · simp only [if_neg hbig]
            apply ih i (by omega)
            rw [htake, if_neg hw] at hinv
            omega
    · rw [if_neg hi]
      simp

/-- C7 amended: the backward deletion scan is total (it is a terminating
function, examining at most `2 * len(tokens) + 1` positions thanks to the
single wraparound of Python negative indexing and the 100-word break), and it
completes without an index error whenever the fragment holds at least
`num_words` word tokens; when the fragment holds fewer word tokens than
`num_words`, the scan wraps through negative indices and can raise an
`IndexError` instead of silently truncating (see the counterexample). -/
theorem c7_scan_no_error (tokens : List String) (numWords : Nat)
    (h : numWords ≤ (tokens.filter (fun t => isWordTok t)).length) :
    (deleteScan tokens numWords).isSome = true := by
  unfold deleteScan
  exact scanAux_some tokens numWords tokens.length 0 (le_refl _)
    (by simpa [List.take_length] using h)

/-- C7 witness: the scan succeeds on a fragment with enough word tokens. -/
theorem c7_scan_no_error_witness :
    (deleteScan ["alpha", "beta"] 2).isSome = true :=
  c7_scan_no_error ["alpha", "beta"] 2 (by decide)

/-- Modelled from the spec: the external `tokenize` (`adeft.nlp`, absent
from the sources) instantiated as a plain whitespace tokenizer producing
(token, trailing whitespace) pairs — an instance of the tokenizer interface
of spec section 6. -/
def tokWsP (l : List Char) : List (String × String) :=
  (splitWs l).map (fun w => (String.mk w, " "))

/-- Modelled from the spec: the same whitespace tokenizer on strings,
returning the token texts, as used when the trie is built. -/
def tokWsStr (s : String) : List String :=
  (splitWs s.data).map String.mk

/-- C7 counterexample: grounding map with the longform "-- -- -- --"
(grounding "X"), text "-- -- -- -- (SF)".  The fragment's search returns the
longform (its reversed stemmed key matches), `num_words = 4`, but the
fragment holds no `\w+` word tokens, so the backward scan wraps through the
negative indices and raises an `IndexError` (modelled as `none`) instead of
silently truncating: `strip_defining_patterns` fails on this input. -/
theorem c7_cex :
    stripDefiningPatterns tokWsP (fun s => s)
      (adeftTrie (fun s => s) tokWsStr [("-- -- -- --", "X")])
      "SF".data "-- -- -- -- (SF)".data = none := by
  have hscan : deleteScan ["--", "--", "--", "--"] 4 = none := by
    simp [deleteScan, scanAux, pyGet, isWordTok]
  have hfrag : getFragments "SF".data "-- -- -- -- (SF)".data =
      ["-- -- -- -- ".data] := by decide
  have hsearch : searchTrie (adeftTrie (fun s => s) tokWsStr [("-- -- -- --", "X")])
      ["--", "--", "--", "--"] = some "-- -- -- --" := by decide
  have hpunct : isPunctTok "--" = false := by decide
  have hstep : stripStep tokWsP (fun s => s)
      (adeftTrie (fun s => s) tokWsStr [("-- -- -- --", "X")])
      "-- -- -- -- (SF)".data "-- -- -- -- ".data = none := by
    simp [stripStep, tokWsP, splitWs, splitWsAux, isWs, hpunct,
      hsearch, pySplitCount, hscan]
  simp [stripDefiningPatterns, hfrag, hstep]

theorem searchTrie_emptyRoot (q : List String) :
    searchTrie (TrieNode.mk none []) q = none := by
  cases q with
  | nil => rfl
  | cons t rest => simp [searchTrie, children_mk, assocFind]

theorem hasPat_cons_false {sf : List Char} {c : Char} {cs : List Char}
    (h : hasPat sf (c :: cs) = false) :
    matchPat sf (c :: cs) = none ∧ hasPat sf cs = false := by
  rw [hasPat, Bool.or_eq_false_iff] at h
  exact ⟨Option.not_isSome_iff_eq_none.mp (by simp [h.1]), h.2⟩

theorem resubF_no_match (sf r : List Char) :
    ∀ (fuel : Nat) (l : List Char), hasPat sf l = false →
      resubF sf r fuel l = l := by
  intro fuel
  induction fuel with
  | zero => intro l _; cases l <;> rfl
  | succ fuel ih =>
    intro l h
    cases l with
    | nil => rfl
    | cons c cs =>
      obtain ⟨h1, h2⟩ := hasPat_cons_false h
      simp [resubF, h1, ih cs h2]

theorem resub_no_match {sf r l : List Char} (h : hasPat sf l = false) :
    resub sf r l = l :=
  resubF_no_match sf r l.length l h

theorem fragAux_no_match (sf : List Char) :
    ∀ (fuel : Nat) (l acc : List Char), hasPat sf l = false →
      fragAux sf fuel l acc = [] := by
  intro fuel
  induction fuel with
  | zero => intro l acc _; cases l <;> rfl
  | succ fuel ih =>
    intro l acc h
    cases l with
    | nil => rfl
    | cons c cs =>
      obtain ⟨h1, h2⟩ := hasPat_cons_false h
      simp [fragAux, h1, ih cs _ h2]

theorem getFragments_no_match {sf l : List Char} (h : hasPat sf l = false) :
    getFragments sf l = [] :=
  fragAux_no_match sf l.length l [] h

theorem splitWsAux_good :
    ∀ (l acc : List Char), (∀ c ∈ acc, isWs c = false) →
      ∀ w ∈ splitWsAux l acc, w ≠ [] ∧ ∀ c ∈ w, isWs c = false := by
  intro l
  induction l with
  | nil =>
    intro acc hacc w hw
    simp only [splitWsAux] at hw
    split_ifs at hw with he
    · cases hw
    · rw [List.mem_singleton] at hw
      subst hw
      refine ⟨?_, fun c hc => hacc c (List.mem_reverse.mp hc)⟩
      simp only [List.isEmpty_iff] at he
      simp [he]
  | cons c cs ih =>
    intro acc hacc w hw
    simp only [splitWsAux] at hw
    by_cases hc : isWs c
    · rw [if_pos hc] at hw
      by_cases he : acc.isEmpty
      · rw [if_pos he] at hw
        exact ih [] (by simp) w hw
      · rw [if_neg he] at hw
        rcases List.mem_cons.mp hw with hw | hw
        · subst hw
          refine ⟨?_, fun d hd => hacc d (List.mem_reverse.mp hd)⟩
          simp only [List.isEmpty_iff] at he
          simp [he]
        · exact ih [] (by simp) w hw
    · rw [if_neg hc] at hw
      refine ih (c :: acc) ?_ w hw
      intro d hd
      rcases List.mem_cons.mp hd with rfl | hd
      · exact Bool.not_eq_true _ ▸ (by simpa using hc)
      · exact hacc d hd

theorem splitWsAux_shift :
    ∀ (w : List Char), (∀ c ∈ w, isWs c = false) →
      ∀ (l acc : List Char),
        splitWsAux (w ++ l) acc = splitWsAux l (w.reverse ++ acc) := by
  intro w
  induction w with
  | nil => intro _ l acc; simp
  | cons c w2 ih =>
    intro hw l acc
    have hc : isWs c = false := hw c (List.mem_cons_self _ _)
    show splitWsAux (c :: (w2 ++ l)) acc = _
    rw [splitWsAux]
    rw [hc]
    simp only [Bool.false_eq_true, if_false]
    rw [ih (fun d hd => hw d (List.mem_cons_of_mem _ hd)) l (c :: acc)]
    simp [List.append_assoc]

theorem splitWs_joinWs :
    ∀ (ws : List (List Char)),
      (∀ w ∈ ws, w ≠ [] ∧ ∀ c ∈ w, isWs c = false) →
      splitWs (joinWs ws) = ws := by
  intro ws
  induction ws with
  | nil => intro _; rfl
  | cons w ws2 ih =>
    intro hws
    obtain ⟨hwne, hwc⟩ := hws w (List.mem_cons_self _ _)
    cases ws2 with
    | nil =>
      show splitWs w = [w]
      unfold splitWs
      calc splitWsAux w [] = splitWsAux (w ++ []) [] := by simp
        _ = splitWsAux [] (w.reverse ++ []) := splitWsAux_shift w hwc [] []
        _ = [w] := by simp [splitWsAux, hwne]
    | cons w2 ws3 =>
      show splitWs (w ++ ' ' :: joinWs (w2 :: ws3)) = w :: w2 :: ws3
      unfold splitWs
      rw [splitWsAux_shift w hwc]
      rw [splitWsAux]
      have h1 : isWs ' ' = true := rfl
      have h2 : (w.reverse ++ []).isEmpty = false := by
        simp [hwne]
      rw [h1, h2]
      simp only [if_true, Bool.false_eq_true, if_false]
      have h3 : (w.reverse ++ []).reverse = w := by simp
      rw [h3]
      have := ih (fun x hx => hws x (List.mem_cons_of_mem _ hx))
      unfold splitWs at this
      rw [this]

theorem collapseWs_idem (l : List Char) :
    collapseWs (collapseWs l) = collapseWs l := by
  unfold collapseWs
  rw [splitWs_joinWs (splitWs l) (fun w hw => splitWsAux_good l [] (by simp) w hw)]

/-- C8 amended: `strip_defining_patterns` is idempotent on every text whose
once-stripped form contains no remaining parenthesized occurrence of the
shortform: applying it to such a result returns the result unchanged.  When
the first application itself leaves a parenthesized shortform behind — as
happens with nested parentheses like "((SF))", where replacing the inner
"(SF)" manufactures a new "( SF )" pattern — a second application rewrites
further (see the counterexample). -/
theorem c8_strip_idempotent (tokP : List Char → List (String × String))
    (stem : String → String) (trie : TrieNode) (sf text t1 : List Char)
    (h1 : stripDefiningPatterns tokP stem trie sf text = some t1)
    (h2 : hasPat sf t1 = false) :
    stripDefiningPatterns tokP stem trie sf t1 = some t1 := by
  have hshape : ∃ u, t1 = collapseWs u := by
    unfold stripDefiningPatterns at h1
    cases hf : (getFragments sf text).foldlM (stripStep tokP stem trie) text with
    | none => rw [hf] at h1; cases h1
    | some u =>
      rw [hf] at h1
      simp only [Option.bind_eq_bind, Option.some_bind, Option.pure_def,
        Option.some.injEq] at h1
      exact ⟨_, h1.symm⟩
  obtain ⟨u, ht1⟩ := hshape
  unfold stripDefiningPatterns
  rw [getFragments_no_match h2]
  simp only [List.foldlM_nil, Option.pure_def, Option.bind_eq_bind,
    Option.some_bind, Option.some.injEq]
  rw [resub_no_match h2, ht1, collapseWs_idem]

theorem c8_cex :
    stripDefiningPatterns tokWsP (fun s => s) (TrieNode.mk none [])
      "SF".data "((SF))".data = some "( SF )".data ∧
    stripDefiningPatterns tokWsP (fun s => s) (TrieNode.mk none [])
      "SF".data "( SF )".data = some "SF".data ∧
    "( SF )".data ≠ "SF".data := by
  refine ⟨by decide, by decide, by decide⟩

theorem c8_strip_idempotent_witness :
    stripDefiningPatterns tokWsP (fun s => s) (TrieNode.mk none [])
      "SF".data "x SF".data = some "x SF".data :=
  c8_strip_idempotent tokWsP (fun s => s) (TrieNode.mk none []) "SF".data
    "x (SF)".data "x SF".data (by decide) (by decide)
